import Mathlib

/-!
Verification development for the MMKV memory-mapped key-value store core.

The repository's headers (`src/Core/MemoryFile.h`, `src/POSIX/golang/golang-bridge.h`)
declare the boundary of the engine; the engine body (codec, append log, recovery
scan, index table, compaction, cipher) is specified in `spec.md`.  Definitions
below that embed header code say so; definitions whose doc comment starts with
`Modelled from the spec:` reconstruct a component whose implementation is not in
the provided sources, faithfully to the spec's words.
-/

namespace MMKV

/-! ## CodecBuffer: binary framing for scalars and byte strings

Modelled from the spec: "Encode/decode for booleans, 32/64-bit signed/unsigned
integers, 32/64-bit floats, and byte strings framed as a variable-length
unsigned length prefix (7 payload bits per byte, continuation bit) followed by
raw bytes." Bytes are `Nat` values `< 256`.
-/

/-- Decoding failures of the codec layer (spec: `FormatError`). -/
inductive FormatError where
  | truncatedVarint : FormatError
  | lengthExceedsBuffer : FormatError
deriving DecidableEq, Repr

/-- Modelled from the spec: variable-length unsigned integer encoding, 7
payload bits per byte, continuation bit set on every byte but the last.
`fuel` bounds the recursion; `n` units always suffice since the argument
shrinks by a factor of 128 each step. -/
def varintEncodeF : Nat → Nat → List Nat
  | 0, n => [n]
  | fuel + 1, n =>
    if n < 128 then [n] else (n % 128 + 128) :: varintEncodeF fuel (n / 128)

/-- Modelled from the spec: varint encoding of `n`. -/
def varintEncode (n : Nat) : List Nat := varintEncodeF n n

/-- Modelled from the spec: varint decoding; returns the value and the
unconsumed rest, or `none` on a truncated prefix. -/
def varintDecode : List Nat → Option (Nat × List Nat)
  | [] => none
  | b :: rest =>
    if b < 128 then some (b, rest)
    else
      match varintDecode rest with
      | some (n, rest2) => some (b - 128 + 128 * n, rest2)
      | none => none

/-- Modelled from the spec: a byte string is framed as a varint length prefix
followed by the raw bytes. -/
def encodeBytes (s : List Nat) : List Nat :=
  varintEncode s.length ++ s

/-- Modelled from the spec: byte-string decoding.  A truncated length prefix
or a declared length exceeding the remaining buffer fails with `FormatError`;
the raw bytes taken never go past the declared length. -/
def decodeBytes (buf : List Nat) : Except FormatError (List Nat × List Nat) :=
  match varintDecode buf with
  | none => .error .truncatedVarint
  | some (len, rest) =>
    if len ≤ rest.length then .ok (rest.take len, rest.drop len)
    else .error .lengthExceedsBuffer

/-! ### Fixed-width scalar encodings

Modelled from the spec: scalar values are stored in fixed-width little-endian
byte form (`w` bytes for a `w`-byte scalar); signed integers use two's
complement; floats are transported as their raw 4/8-byte bit patterns (the
codec copies bytes and never interprets the IEEE value). -/

/-- Modelled from the spec: little-endian fixed-width encoding of `n` into `w`
bytes. -/
def fixedEncode : Nat → Nat → List Nat
  | 0, _ => []
  | w + 1, n => n % 256 :: fixedEncode w (n / 256)

/-- Modelled from the spec: little-endian fixed-width decoding of `w` bytes. -/
def fixedDecode : Nat → List Nat → Option (Nat × List Nat)
  | 0, buf => some (0, buf)
  | _ + 1, [] => none
  | w + 1, b :: rest =>
    match fixedDecode w rest with
    | some (n, r) => some (b + 256 * n, r)
    | none => none

/-- Modelled from the spec: boolean encoded as one byte. -/
def encodeBool (b : Bool) : List Nat := [if b then 1 else 0]

/-- Modelled from the spec: boolean decoding; any non-zero byte reads true. -/
def decodeBool : List Nat → Option (Bool × List Nat)
  | [] => none
  | b :: rest => some (decide (b ≠ 0), rest)

/-- Modelled from the spec: unsigned 32-bit integer, 4 bytes little-endian. -/
def encodeUInt32 (n : Nat) : List Nat := fixedEncode 4 n

/-- Modelled from the spec: unsigned 32-bit decode. -/
def decodeUInt32 (buf : List Nat) : Option (Nat × List Nat) := fixedDecode 4 buf

/-- Modelled from the spec: unsigned 64-bit integer, 8 bytes little-endian. -/
def encodeUInt64 (n : Nat) : List Nat := fixedEncode 8 n

/-- Modelled from the spec: unsigned 64-bit decode. -/
def decodeUInt64 (buf : List Nat) : Option (Nat × List Nat) := fixedDecode 8 buf

/-- Modelled from the spec: signed 32-bit integer, two's complement, 4 bytes. -/
def encodeInt32 (i : Int) : List Nat := fixedEncode 4 (i % (2 ^ 32)).toNat

/-- Modelled from the spec: signed 32-bit decode. -/
def decodeInt32 (buf : List Nat) : Option (Int × List Nat) :=
  match fixedDecode 4 buf with
  | some (n, rest) =>
    some (if n < 2 ^ 31 then (n : Int) else (n : Int) - 2 ^ 32, rest)
  | none => none

/-- Modelled from the spec: signed 64-bit integer, two's complement, 8 bytes. -/
def encodeInt64 (i : Int) : List Nat := fixedEncode 8 (i % (2 ^ 64)).toNat

/-- Modelled from the spec: signed 64-bit decode. -/
def decodeInt64 (buf : List Nat) : Option (Int × List Nat) :=
  match fixedDecode 8 buf with
  | some (n, rest) =>
    some (if n < 2 ^ 63 then (n : Int) else (n : Int) - 2 ^ 64, rest)
  | none => none

/-- Modelled from the spec: 32-bit float transported as its raw bit pattern
(4 bytes, never interpreted by the codec). -/
def encodeFloat (bits : Nat) : List Nat := fixedEncode 4 bits

/-- Modelled from the spec: 32-bit float bit-pattern decode. -/
def decodeFloat (buf : List Nat) : Option (Nat × List Nat) := fixedDecode 4 buf

/-- Modelled from the spec: 64-bit float transported as its raw bit pattern. -/
def encodeDouble (bits : Nat) : List Nat := fixedEncode 8 bits

/-- Modelled from the spec: 64-bit float bit-pattern decode. -/
def decodeDouble (buf : List Nat) : Option (Nat × List Nat) := fixedDecode 8 buf

/-! ## AppendLog: framed records with checksum footer, crash-recovery scan -/

/-- A log record (spec `Record`): key bytes and either value bytes or a
tombstone (`none`). -/
structure Record where
  key : List Nat
  value : Option (List Nat)
deriving DecidableEq, Repr

/-- Modelled from the spec: the value field of a record, "[varint value length
or tombstone marker]": a tombstone is marker 0, a value `v` is framed with
length `v.length + 1`. -/
def encodeValueField : Option (List Nat) → List Nat
  | none => varintEncode 0
  | some v => varintEncode (v.length + 1) ++ v

/-- Modelled from the spec: parse the value field, distinguishing tombstones
from values. -/
def parseValueField (buf : List Nat) : Option (Option (List Nat) × List Nat) :=
  match varintDecode buf with
  | none => none
  | some (0, rest) => some (none, rest)
  | some (l + 1, rest) =>
    if l ≤ rest.length then some (some (rest.take l), rest.drop l) else none

/-- Modelled from the spec: checksum footer validating a written byte range. -/
def chksum (body : List Nat) : Nat := body.sum % 256

/-- Modelled from the spec: record body "[varint key length][key bytes][varint
value length or tombstone marker][value bytes]". -/
def recordBody (r : Record) : List Nat :=
  encodeBytes r.key ++ encodeValueField r.value

/-- Modelled from the spec: a record's on-wire bytes, the body followed by its
checksum footer. -/
def recordWire (r : Record) : List Nat :=
  recordBody r ++ [chksum (recordBody r)]

/-- Modelled from the spec: parse one framed record at the front of the
buffer, verifying the checksum footer over the raw consumed bytes.  `none`
marks the crash boundary: a truncated or checksum-invalid record. -/
def parseRecord (buf : List Nat) : Option (Record × List Nat) :=
  match decodeBytes buf with
  | .error _ => none
  | .ok (k, r1) =>
    match parseValueField r1 with
    | none => none
    | some (v, r2) =>
      match r2 with
      | [] => none
      | c :: r3 =>
        if c = chksum (buf.take (buf.length - r2.length)) then some (⟨k, v⟩, r3)
        else none

/-- Modelled from the spec: `scanFrom(0)` — the finite sequence of records
readable from the front of the buffer, stopping at the first
invalid/truncated record (the crash boundary).  `fuel` bounds the recursion;
one unit per buffer byte always suffices because each parsed record consumes
at least one byte. -/
def scanLogF : Nat → List Nat → List Record
  | 0, _ => []
  | fuel + 1, buf =>
    match parseRecord buf with
    | none => []
    | some (r, rest) => r :: scanLogF fuel rest

/-- Modelled from the spec: the recovery scan of a raw buffer. -/
def scanLog (buf : List Nat) : List Record := scanLogF buf.length buf

/-- Modelled from the spec: the recovered used-size — the byte count of the
longest checksum-valid record prefix; recovery truncates used-size to this. -/
def scanUsedF : Nat → List Nat → Nat
  | 0, _ => 0
  | fuel + 1, buf =>
    match parseRecord buf with
    | none => 0
    | some (_, rest) => (buf.length - rest.length) + scanUsedF fuel rest

/-- Modelled from the spec: recovered used-size of a raw buffer. -/
def scanUsed (buf : List Nat) : Nat := scanUsedF buf.length buf

/-- Modelled from the spec: the byte image of a sequence of appended records. -/
def encodeLog (rs : List Record) : List Nat :=
  (rs.map recordWire).flatten

/-! ## IndexTable: in-memory key→value map, rebuilt by replay -/

/-- Modelled from the spec: IndexTable as an association list, key to the
value of the latest live record, at most one live entry per key. -/
abbrev IndexTable := List (List Nat × List Nat)

/-- Modelled from the spec: `put(key, value)` replaces any live entry for the
key with the new one. -/
def indexPut (idx : IndexTable) (k v : List Nat) : IndexTable :=
  idx.filter (fun e => !decide (e.1 = k)) ++ [(k, v)]

/-- Modelled from the spec: `remove(key)` drops the live entry for the key. -/
def indexRemove (idx : IndexTable) (k : List Nat) : IndexTable :=
  idx.filter (fun e => !decide (e.1 = k))

/-- Modelled from the spec: `get(key)` looks up the live entry. -/
def indexGet (idx : IndexTable) (k : List Nat) : Option (List Nat) :=
  match idx.find? (fun e => decide (e.1 = k)) with
  | some e => some e.2
  | none => none

/-- Modelled from the spec: `allKeys()`. -/
def allKeys (idx : IndexTable) : List (List Nat) :=
  idx.map Prod.fst

/-- Modelled from the spec: replaying one scanned record into the index:
a value puts, a tombstone removes. -/
def applyRecord (idx : IndexTable) (r : Record) : IndexTable :=
  match r.value with
  | some v => indexPut idx r.key v
  | none => indexRemove idx r.key

/-- Modelled from the spec: the IndexTable rebuilt by replaying records in
log order, last writer wins. -/
def buildIndex (rs : List Record) : IndexTable :=
  rs.foldl applyRecord []

/-- Modelled from the spec: recovery at open — scan the raw buffer and
rebuild the IndexTable and the recovered used-size.  Total: corruption
degrades to truncation, it never refuses to open. -/
def recover (buf : List Nat) : IndexTable × Nat :=
  (buildIndex (scanLog buf), scanUsed buf)

/-- Modelled from the spec: the most recent record for a key, scanning from
the tail; a trailing tombstone reads as absent. -/
def lastWrite (rs : List Record) (k : List Nat) : Option (List Nat) :=
  match rs.reverse.find? (fun r => decide (r.key = k)) with
  | some r => r.value
  | none => none

/-! ## Engine facade: get/set/remove/keys over the append log, and trim -/

/-- Modelled from the spec: the Engine's durable state is the raw byte log
inside the mapped region. -/
structure Engine where
  data : List Nat
deriving DecidableEq, Repr

/-- An engine whose log holds exactly the given records. -/
def Engine.ofRecords (rs : List Record) : Engine := ⟨encodeLog rs⟩

/-- Modelled from the spec: the IndexTable rebuilt by the recovery scan. -/
def Engine.index (e : Engine) : IndexTable := buildIndex (scanLog e.data)

/-- Modelled from the spec: `set` appends a value record. -/
def Engine.set (e : Engine) (k v : List Nat) : Engine :=
  ⟨e.data ++ recordWire ⟨k, some v⟩⟩

/-- Modelled from the spec: `remove` appends a tombstone record. -/
def Engine.remove (e : Engine) (k : List Nat) : Engine :=
  ⟨e.data ++ recordWire ⟨k, none⟩⟩

/-- Modelled from the spec: `get` routes through the IndexTable. -/
def Engine.get (e : Engine) (k : List Nat) : Option (List Nat) :=
  indexGet e.index k

/-- Modelled from the spec: `allKeys` of the live index. -/
def Engine.keys (e : Engine) : List (List Nat) :=
  allKeys e.index

/-! ### CompactionManager: trim -/

/-- Lexicographic byte-string comparison, the key order trim writes in. -/
def listLex : List Nat → List Nat → Bool
  | [], _ => true
  | _ :: _, [] => false
  | a :: as, b :: bs => if a < b then true else if b < a then false else listLex as bs

/-- Key order on index entries. -/
def keyOrder (x y : List Nat × List Nat) : Prop := listLex x.1 y.1 = true

instance : DecidableRel keyOrder :=
  fun x y => inferInstanceAs (Decidable (listLex x.1 y.1 = true))

/-- Modelled from the spec: the currently-live records per IndexTable, one
value record per live entry. -/
def liveAsRecords (idx : IndexTable) : List Record :=
  idx.map (fun kv => ⟨kv.1, some kv.2⟩)

/-- Modelled from the spec: trim rewrites only currently-live records (per
IndexTable) in key order into a fresh region, discarding dead/tombstoned
bytes, then swaps it in. -/
def Engine.trim (e : Engine) : Engine :=
  ⟨encodeLog (liveAsRecords (List.insertionSort keyOrder e.index))⟩

/-- Modelled from the spec: dead bytes — used-size minus the bytes the live
records occupy. -/
def Engine.deadBytes (e : Engine) : Nat :=
  e.data.length - (encodeLog (liveAsRecords e.index)).length

/-! ## CipherStream and reKey -/

/-- Modelled from the spec: position-dependent keystream byte, derived from
the key material plus the absolute byte offset (not buffer-relative). -/
def keystream (key : List Nat) (pos : Nat) : Nat := (key.sum + pos) % 256

/-- Modelled from the spec: length-preserving stream cipher over a byte range
starting at an absolute offset; XOR against the keystream, so decryption is
the same operation and any isolated range can be decoded without replaying
from position zero. -/
def xorStream (key : List Nat) : Nat → List Nat → List Nat
  | _, [] => []
  | off, b :: bs => (b ^^^ keystream key off) :: xorStream key (off + 1) bs

/-- Modelled from the spec: the durable state during a rekey — the observable
main region, and a private scratch region that the read path never consults. -/
structure CryptDisk where
  main : List Nat
  temp : List Nat
deriving DecidableEq, Repr

/-- Modelled from the spec: a reader's view of the store — decrypt the main
region under a key and run the recovery scan. -/
def readUnder (key : List Nat) (d : CryptDisk) : List Record :=
  scanLog (xorStream key 0 d.main)

/-- Modelled from the spec: the sequence of disk states a crash can expose
during `reKey(newKey)` — one state per migrated record while the re-encrypted
copy grows in the scratch region (main untouched), then exactly one state
after the final atomic swap. -/
def rekeyStates (oldKey newKey : List Nat) (d : CryptDisk) : List CryptDisk :=
  ((List.range ((scanLog (xorStream oldKey 0 d.main)).length + 1)).map (fun i =>
    ⟨d.main, xorStream newKey 0 (encodeLog ((scanLog (xorStream oldKey 0 d.main)).take i))⟩))
  ++ [⟨xorStream newKey 0 (encodeLog (scanLog (xorStream oldKey 0 d.main))), []⟩]

/-! ## PageFile / MemoryFile -/

/-- Modelled from the spec: a mapped region — mapped size, logical used size
within it, and the mapped content bytes. -/
structure MemFile where
  mappedSize : Nat
  usedSize : Nat
  content : List Nat
deriving DecidableEq, Repr

/-- Modelled from the spec: round a size up to the next multiple of the OS
page size. -/
def pageRound (pageSize n : Nat) : Nat := ((n + pageSize - 1) / pageSize) * pageSize

/-- Modelled from the spec and the comment on `MemoryFile::truncate` in
src/Core/MemoryFile.h ("the newly expanded file content will be zeroed"):
grow the region to hold `newSize`, rounding up to a page multiple and
zero-filling the newly added bytes. -/
def MemFile.grow (ps : Nat) (f : MemFile) (newSize : Nat) : MemFile :=
  ⟨pageRound ps newSize, f.usedSize,
    f.content ++ List.replicate (pageRound ps newSize - f.mappedSize) 0⟩

/-- Embedded from src/Core/MemoryFile.h: the POSIX fields `isFileValid`
reads — `m_fd` (file descriptor, negative when open failed), `m_size`
(mapped size), `m_ptr` (mapped base address as a numeric value, 0 = null). -/
structure MemoryFile where
  m_fd : Int
  m_size : Nat
  m_ptr : Nat
deriving DecidableEq, Repr

/-- Embedded from src/Core/MemoryFile.h:
`bool isFileValid() { return m_fd >= 0 && m_size > 0 && m_ptr; }`. -/
def MemoryFile.isFileValid (f : MemoryFile) : Bool :=
  decide (f.m_fd ≥ 0) && decide (f.m_size > 0) && decide (f.m_ptr ≠ 0)

/-- Modelled from the spec: `dropCache()`/`clearMemoryCache` unmaps — the
base pointer becomes null — while keeping the backing file. -/
def MemoryFile.clearMemoryCache (f : MemoryFile) : MemoryFile :=
  ⟨f.m_fd, f.m_size, 0⟩

/-! ## Binding boundary (src/POSIX/golang/golang-bridge.h) -/

/-- Embedded from src/POSIX/golang/golang-bridge.h: the C return types the
binding boundary uses. -/
inductive CRet where
  | cBool | cInt32 | cUInt32 | cInt64 | cUInt64 | cFloat | cDouble
  | cPtr | cConstCharPtr | cGoStringWrapPtr | cVoid
deriving DecidableEq, Repr

/-- Embedded from src/POSIX/golang/golang-bridge.h lines 42-97: every binding
function declared there with its declared C return type. -/
def bridgeSignatures : List (String × CRet) := [
  ("mmkvInitialize", .cVoid), ("onExit", .cVoid),
  ("getMMKVWithID", .cPtr), ("getDefaultMMKV", .cPtr), ("mmapID", .cConstCharPtr),
  ("encodeBool", .cBool), ("decodeBool", .cBool),
  ("encodeInt32", .cBool), ("decodeInt32", .cInt32),
  ("encodeUInt32", .cBool), ("decodeUInt32", .cUInt32),
  ("encodeInt64", .cBool), ("decodeInt64", .cInt64),
  ("encodeUInt64", .cBool), ("decodeUInt64", .cUInt64),
  ("encodeFloat", .cBool), ("decodeFloat", .cFloat),
  ("encodeDouble", .cBool), ("decodeDouble", .cDouble),
  ("encodeBytes", .cBool), ("decodeBytes", .cPtr),
  ("reKey", .cBool), ("cryptKey", .cPtr), ("checkReSetCryptKey", .cVoid),
  ("allKeys", .cGoStringWrapPtr), ("containsKey", .cBool), ("count", .cUInt64),
  ("totalSize", .cUInt64), ("actualSize", .cUInt64),
  ("removeValueForKey", .cVoid), ("removeValuesForKeys", .cVoid),
  ("clearAll", .cVoid),
  ("mmkvSync", .cVoid), ("clearMemoryCache", .cVoid), ("trim", .cVoid),
  ("mmkvClose", .cVoid),
  ("pageSize", .cInt32), ("version", .cConstCharPtr),
  ("setWantsLogRedirect", .cVoid), ("setWantsErrorHandle", .cVoid),
  ("setWantsContentChangeHandle", .cVoid)]

/-- The declared return type of a named binding function. -/
def retOf (name : String) : Option CRet :=
  (bridgeSignatures.find? (fun e => e.1 == name)).map Prod.snd

/-- A C return type that can carry a failure indication back to the caller:
anything except `void`. -/
def conveysStatus : CRet → Bool
  | .cVoid => false
  | _ => true

/-! ## Typed decodes with caller defaults -/

/-- Modelled from the spec: the binding's typed boolean decode — the stored
value when the key holds one, otherwise the caller's default; a pure read
returning the store unchanged. -/
def decodeBoolD (e : Engine) (k : List Nat) (dflt : Bool) : Bool × Engine :=
  match e.get k with
  | none => (dflt, e)
  | some bytes =>
    match decodeBool bytes with
    | some (v, _) => (v, e)
    | none => (dflt, e)

/-- Modelled from the spec: typed signed 32-bit decode with default. -/
def decodeInt32D (e : Engine) (k : List Nat) (dflt : Int) : Int × Engine :=
  match e.get k with
  | none => (dflt, e)
  | some bytes =>
    match decodeInt32 bytes with
    | some (v, _) => (v, e)
    | none => (dflt, e)

/-- Modelled from the spec: typed unsigned 32-bit decode with default. -/
def decodeUInt32D (e : Engine) (k : List Nat) (dflt : Nat) : Nat × Engine :=
  match e.get k with
  | none => (dflt, e)
  | some bytes =>
    match decodeUInt32 bytes with
    | some (v, _) => (v, e)
    | none => (dflt, e)

/-- Modelled from the spec: typed signed 64-bit decode with default. -/
def decodeInt64D (e : Engine) (k : List Nat) (dflt : Int) : Int × Engine :=
  match e.get k with
  | none => (dflt, e)
  | some bytes =>
    match decodeInt64 bytes with
    | some (v, _) => (v, e)
    | none => (dflt, e)

/-- Modelled from the spec: typed unsigned 64-bit decode with default. -/
def decodeUInt64D (e : Engine) (k : List Nat) (dflt : Nat) : Nat × Engine :=
  match e.get k with
  | none => (dflt, e)
  | some bytes =>
    match decodeUInt64 bytes with
    | some (v, _) => (v, e)
    | none => (dflt, e)

/-- Modelled from the spec: typed 32-bit float decode (bit pattern) with
default. -/
def decodeFloatD (e : Engine) (k : List Nat) (dflt : Nat) : Nat × Engine :=
  match e.get k with
  | none => (dflt, e)
  | some bytes =>
    match decodeFloat bytes with
    | some (v, _) => (v, e)
    | none => (dflt, e)

/-- Modelled from the spec: typed 64-bit float decode (bit pattern) with
default. -/
def decodeDoubleD (e : Engine) (k : List Nat) (dflt : Nat) : Nat × Engine :=
  match e.get k with
  | none => (dflt, e)
  | some bytes =>
    match decodeDouble bytes with
    | some (v, _) => (v, e)
    | none => (dflt, e)

/-! ### The bridge dispatch: one Engine operation per call, no exceptions -/

/-- Modelled from the spec: the Engine operations of section 4.8
(get/set/remove/clear/trim/sync/close, plus rekey) that the binding boundary
can invoke. -/
inductive EngineOp where
  | opSet (key value : List Nat)
  | opGet (key : List Nat)
  | opRemove (key : List Nat)
  | opClear
  | opTrim
  | opSync
  | opClose
  | opRekey (newKey : List Nat)
deriving DecidableEq, Repr

/-- Modelled from the spec: the Engine's boundary state — Open over a store,
or Closed. -/
inductive EngineState where
  | openSt (e : Engine)
  | closed
deriving DecidableEq, Repr

/-- Modelled from the spec: one Engine operation on the boundary state,
returning the new state, a success status and an optional read value.  On a
closed Engine every operation fails immediately (spec: ClosedError), as a
status — never an exception.  At this byte-log abstraction rekey leaves the
log contents unchanged; its ciphertext migration is the cipher layer's
concern (see `rekeyStates`). -/
def engineStep : EngineOp → EngineState → EngineState × Bool × Option (List Nat)
  | .opSet k v, .openSt e => (.openSt (e.set k v), true, none)
  | .opGet k, .openSt e => (.openSt e, true, e.get k)
  | .opRemove k, .openSt e => (.openSt (e.remove k), true, none)
  | .opClear, .openSt _ => (.openSt ⟨[]⟩, true, none)
  | .opTrim, .openSt e => (.openSt e.trim, true, none)
  | .opSync, .openSt e => (.openSt e, true, none)
  | .opClose, .openSt _ => (.closed, true, none)
  | .opRekey _, .openSt e => (.openSt e, true, none)
  | _, .closed => (.closed, false, none)

/-- Modelled from src/POSIX/golang/golang-bridge.h: the binding calls of the
claim's list (encode*, decode*, removeValueForKey, clearAll, trim, sync,
close, reKey) with their explicit arguments; the handle's store state is
passed explicitly to the dispatch, the calls carry no state of their own. -/
inductive BridgeCall where
  | cEncodeBool (key : List Nat) (value : Bool)
  | cEncodeInt32 (key : List Nat) (value : Int)
  | cEncodeUInt32 (key : List Nat) (value : Nat)
  | cEncodeInt64 (key : List Nat) (value : Int)
  | cEncodeUInt64 (key : List Nat) (value : Nat)
  | cEncodeFloat (key : List Nat) (value : Nat)
  | cEncodeDouble (key : List Nat) (value : Nat)
  | cEncodeBytes (key value : List Nat)
  | cDecodeBool (key : List Nat) (dflt : Bool)
  | cDecodeInt32 (key : List Nat) (dflt : Int)
  | cDecodeUInt32 (key : List Nat) (dflt : Nat)
  | cDecodeInt64 (key : List Nat) (dflt : Int)
  | cDecodeUInt64 (key : List Nat) (dflt : Nat)
  | cDecodeFloat (key : List Nat) (dflt : Nat)
  | cDecodeDouble (key : List Nat) (dflt : Nat)
  | cDecodeBytes (key : List Nat)
  | cRemoveValueForKey (key : List Nat)
  | cClearAll
  | cTrim
  | cMmkvSync
  | cMmkvClose
  | cReKey (newKey : List Nat)
deriving DecidableEq, Repr

/-- The header name each modelled binding call stands for. -/
def nameOfCall : BridgeCall → String
  | .cEncodeBool .. => "encodeBool"
  | .cEncodeInt32 .. => "encodeInt32"
  | .cEncodeUInt32 .. => "encodeUInt32"
  | .cEncodeInt64 .. => "encodeInt64"
  | .cEncodeUInt64 .. => "encodeUInt64"
  | .cEncodeFloat .. => "encodeFloat"
  | .cEncodeDouble .. => "encodeDouble"
  | .cEncodeBytes .. => "encodeBytes"
  | .cDecodeBool .. => "decodeBool"
  | .cDecodeInt32 .. => "decodeInt32"
  | .cDecodeUInt32 .. => "decodeUInt32"
  | .cDecodeInt64 .. => "decodeInt64"
  | .cDecodeUInt64 .. => "decodeUInt64"
  | .cDecodeFloat .. => "decodeFloat"
  | .cDecodeDouble .. => "decodeDouble"
  | .cDecodeBytes .. => "decodeBytes"
  | .cRemoveValueForKey .. => "removeValueForKey"
  | .cClearAll => "clearAll"
  | .cTrim => "trim"
  | .cMmkvSync => "mmkvSync"
  | .cMmkvClose => "mmkvClose"
  | .cReKey .. => "reKey"

/-- Modelled from the spec ("Each call maps onto exactly one Engine
operation"): the one Engine operation each binding call performs — typed
encodes are a `set` of the encoded bytes, typed decodes a `get`. -/
def opOfCall : BridgeCall → EngineOp
  | .cEncodeBool k v => .opSet k (encodeBool v)
  | .cEncodeInt32 k v => .opSet k (encodeInt32 v)
  | .cEncodeUInt32 k v => .opSet k (encodeUInt32 v)
  | .cEncodeInt64 k v => .opSet k (encodeInt64 v)
  | .cEncodeUInt64 k v => .opSet k (encodeUInt64 v)
  | .cEncodeFloat k v => .opSet k (encodeFloat v)
  | .cEncodeDouble k v => .opSet k (encodeDouble v)
  | .cEncodeBytes k v => .opSet k v
  | .cDecodeBool k _ => .opGet k
  | .cDecodeInt32 k _ => .opGet k
  | .cDecodeUInt32 k _ => .opGet k
  | .cDecodeInt64 k _ => .opGet k
  | .cDecodeUInt64 k _ => .opGet k
  | .cDecodeFloat k _ => .opGet k
  | .cDecodeDouble k _ => .opGet k
  | .cDecodeBytes k => .opGet k
  | .cRemoveValueForKey k => .opRemove k
  | .cClearAll => .opClear
  | .cTrim => .opTrim
  | .cMmkvSync => .opSync
  | .cMmkvClose => .opClose
  | .cReKey nk => .opRekey nk

/-- The value a typed decode hands back: the decoded stored bytes when
present and decodable, the caller's default otherwise. -/
def decOr {α : Type} (dec : List Nat → Option (α × List Nat)) (d : α) :
    Option (List Nat) → α
  | none => d
  | some bytes =>
    match dec bytes with
    | some (v, _) => v
    | none => d

/-- A value crossing the binding boundary, occupying one C return channel. -/
inductive CValue where
  | retBool (b : Bool)
  | retInt32 (i : Int)
  | retUInt32 (n : Nat)
  | retInt64 (i : Int)
  | retUInt64 (n : Nat)
  | retFloat (bits : Nat)
  | retDouble (bits : Nat)
  | retBytes (bs : Option (List Nat))
  | retUnit
deriving DecidableEq, Repr

/-- The C return channel a marshalled value occupies. -/
def cretOf : CValue → CRet
  | .retBool _ => .cBool
  | .retInt32 _ => .cInt32
  | .retUInt32 _ => .cUInt32
  | .retInt64 _ => .cInt64
  | .retUInt64 _ => .cUInt64
  | .retFloat _ => .cFloat
  | .retDouble _ => .cDouble
  | .retBytes _ => .cPtr
  | .retUnit => .cVoid

/-- Modelled from the spec: marshal one call's outcome into its declared C
return channel — encodes and reKey report the status boolean, typed decodes
return the decoded value or the caller's default, decodeBytes returns the
bytes pointer (null when absent), and the void calls return nothing. -/
def marshal : BridgeCall → Bool → Option (List Nat) → CValue
  | .cEncodeBool .., ok, _ => .retBool ok
  | .cEncodeInt32 .., ok, _ => .retBool ok
  | .cEncodeUInt32 .., ok, _ => .retBool ok
  | .cEncodeInt64 .., ok, _ => .retBool ok
  | .cEncodeUInt64 .., ok, _ => .retBool ok
  | .cEncodeFloat .., ok, _ => .retBool ok
  | .cEncodeDouble .., ok, _ => .retBool ok
  | .cEncodeBytes .., ok, _ => .retBool ok
  | .cDecodeBool _ d, _, read => .retBool (decOr decodeBool d read)
  | .cDecodeInt32 _ d, _, read => .retInt32 (decOr decodeInt32 d read)
  | .cDecodeUInt32 _ d, _, read => .retUInt32 (decOr decodeUInt32 d read)
  | .cDecodeInt64 _ d, _, read => .retInt64 (decOr decodeInt64 d read)
  | .cDecodeUInt64 _ d, _, read => .retUInt64 (decOr decodeUInt64 d read)
  | .cDecodeFloat _ d, _, read => .retFloat (decOr decodeFloat d read)
  | .cDecodeDouble _ d, _, read => .retDouble (decOr decodeDouble d read)
  | .cDecodeBytes _, _, read => .retBytes read
  | .cRemoveValueForKey _, _, _ => .retUnit
  | .cClearAll, _, _ => .retUnit
  | .cTrim, _, _ => .retUnit
  | .cMmkvSync, _, _ => .retUnit
  | .cMmkvClose, _, _ => .retUnit
  | .cReKey _, ok, _ => .retBool ok

/-- Modelled from the spec: the bridge dispatch — each call performs exactly
the one Engine operation `opOfCall` names on the explicitly passed state,
and marshals the outcome into its declared return channel.  A pure function
of the call and that state: the bridge layer carries no hidden state. -/
def bridgeDispatch (c : BridgeCall) (st : EngineState) : EngineState × CValue :=
  ((engineStep (opOfCall c) st).1,
    marshal c (engineStep (opOfCall c) st).2.1 (engineStep (opOfCall c) st).2.2)

/-! ## Properties -/

theorem varintDecode_encodeF (fuel : Nat) : ∀ (n : Nat), n ≤ fuel →
    ∀ (rest : List Nat), varintDecode (varintEncodeF fuel n ++ rest) = some (n, rest) := by
  induction fuel with
  | zero =>
    intro n hn rest
    have h0 : n = 0 := by omega
    subst h0
    simp [varintEncodeF, varintDecode]
  | succ fuel ih =>
    intro n hn rest
    rw [varintEncodeF]
    by_cases h : n < 128
    · simp [h, varintDecode]
    · have hdiv : n / 128 ≤ fuel := by omega
      simp only [if_neg h, List.cons_append, varintDecode, ih (n / 128) hdiv rest]
      have h1 : ¬ (n % 128 + 128 < 128) := by omega
      simp only [if_neg h1, Option.some.injEq, Prod.mk.injEq]
      exact ⟨by omega, trivial⟩

theorem varintDecode_encode (n : Nat) (rest : List Nat) :
    varintDecode (varintEncode n ++ rest) = some (n, rest) :=
  varintDecode_encodeF n n (le_refl n) rest

/-- A successful varint decode leaves a strict suffix: it consumes at least
one byte. -/
theorem varintDecode_length {buf : List Nat} {n : Nat} {rest : List Nat}
    (h : varintDecode buf = some (n, rest)) : rest.length < buf.length := by
  induction buf generalizing n rest with
  | nil => simp [varintDecode] at h
  | cons b bs ih =>
    simp only [varintDecode] at h
    by_cases hb : b < 128
    · simp [hb] at h
      simp [← h.2, List.length_cons]
    · simp only [if_neg hb] at h
      cases hrec : varintDecode bs with
      | none => simp [hrec] at h
      | some p =>
        obtain ⟨m, r2⟩ := p
        rw [hrec] at h
        simp at h
        have := ih hrec
        simp [← h.2, List.length_cons]
        omega

/-- A successful varint decode returns a literal suffix of the input. -/
theorem varintDecode_suffix {buf : List Nat} {n : Nat} {rest : List Nat}
    (h : varintDecode buf = some (n, rest)) : ∃ pre, buf = pre ++ rest := by
  induction buf generalizing n rest with
  | nil => simp [varintDecode] at h
  | cons b bs ih =>
    simp only [varintDecode] at h
    by_cases hb : b < 128
    · simp [hb] at h
      exact ⟨[b], by simp [h.2]⟩
    · simp only [if_neg hb] at h
      cases hrec : varintDecode bs with
      | none => simp [hrec] at h
      | some p =>
        obtain ⟨m, r2⟩ := p
        rw [hrec] at h
        simp at h
        obtain ⟨pre, hpre⟩ := ih hrec
        exact ⟨b :: pre, by simp [hpre, ← h.2]⟩

theorem decodeBytes_encode (s rest : List Nat) :
    decodeBytes (encodeBytes s ++ rest) = .ok (s, rest) := by
  simp only [decodeBytes, encodeBytes, List.append_assoc, varintDecode_encode]
  have h : s.length ≤ (s ++ rest).length := by simp
  simp [h, List.take_left, List.drop_left]

/-- A successful byte-string decode consumed at least one byte and leaves a
literal suffix of the input. -/
theorem decodeBytes_shape {buf v rest : List Nat}
    (h : decodeBytes buf = .ok (v, rest)) :
    rest.length < buf.length ∧ ∃ pre, buf = pre ++ v ++ rest := by
  simp only [decodeBytes] at h
  cases hv : varintDecode buf with
  | none => rw [hv] at h; exact absurd h (by simp)
  | some p =>
    obtain ⟨len, r1⟩ := p
    rw [hv] at h
    by_cases hlen : len ≤ r1.length
    · simp only [if_pos hlen] at h
      have hvl := varintDecode_length hv
      obtain ⟨pre, hpre⟩ := varintDecode_suffix hv
      injection h with h
      injection h with h1 h2
      constructor
      · rw [← h2]
        simp
        omega
      · refine ⟨pre, ?_⟩
        rw [hpre, ← h1, ← h2, List.append_assoc, List.take_append_drop]
    · simp [if_neg hlen] at h

theorem fixedDecode_encode (w : Nat) (n : Nat) (rest : List Nat)
    (h : n < 256 ^ w) :
    fixedDecode w (fixedEncode w n ++ rest) = some (n, rest) := by
  induction w generalizing n with
  | zero =>
    simp at h
    simp [h, fixedEncode, fixedDecode]
  | succ w ih =>
    have hdiv : n / 256 < 256 ^ w := by
      rw [Nat.div_lt_iff_lt_mul (by norm_num)]
      calc n < 256 ^ (w + 1) := h
        _ = 256 ^ w * 256 := by ring
    simp only [fixedEncode, List.cons_append, fixedDecode, List.append_eq]
    rw [ih (n / 256) hdiv]
    simp only [Option.some.injEq, Prod.mk.injEq]
    exact ⟨by omega, trivial⟩

theorem decodeBool_encode (b : Bool) (rest : List Nat) :
    decodeBool (encodeBool b ++ rest) = some (b, rest) := by
  cases b <;> simp [encodeBool, decodeBool]

theorem decodeInt32_encode (i : Int) (rest : List Nat)
    (hlo : -(2 ^ 31) ≤ i) (hhi : i < 2 ^ 31) :
    decodeInt32 (encodeInt32 i ++ rest) = some (i, rest) := by
  have hmod : (0 : Int) ≤ i % (2 ^ 32) := Int.emod_nonneg i (by norm_num)
  have hmod2 : i % (2 ^ 32) < 2 ^ 32 := Int.emod_lt_of_pos i (by norm_num)
  have hnat : (i % (2 ^ 32)).toNat < 256 ^ 4 := by
    have : (256 : Nat) ^ 4 = 2 ^ 32 := by norm_num
    omega
  rw [encodeInt32, decodeInt32, fixedDecode_encode 4 _ rest hnat]
  by_cases hpos : 0 ≤ i
  · have heq : i % (2 ^ 32) = i := by omega
    have hlt : (i % (2 ^ 32)).toNat < 2 ^ 31 := by omega
    simp only [if_pos hlt, Option.some.injEq, Prod.mk.injEq]
    exact ⟨by omega, trivial⟩
  · have heq : i % (2 ^ 32) = i + 2 ^ 32 := by omega
    have hge : ¬ ((i % (2 ^ 32)).toNat < 2 ^ 31) := by omega
    simp only [if_neg hge, Option.some.injEq, Prod.mk.injEq]
    exact ⟨by omega, trivial⟩

theorem decodeInt64_encode (i : Int) (rest : List Nat)
    (hlo : -(2 ^ 63) ≤ i) (hhi : i < 2 ^ 63) :
    decodeInt64 (encodeInt64 i ++ rest) = some (i, rest) := by
  have hmod : (0 : Int) ≤ i % (2 ^ 64) := Int.emod_nonneg i (by norm_num)
  have hmod2 : i % (2 ^ 64) < 2 ^ 64 := Int.emod_lt_of_pos i (by norm_num)
  have hnat : (i % (2 ^ 64)).toNat < 256 ^ 8 := by
    have : (256 : Nat) ^ 8 = 2 ^ 64 := by norm_num
    omega
  rw [encodeInt64, decodeInt64, fixedDecode_encode 8 _ rest hnat]
  by_cases hpos : 0 ≤ i
  · have heq : i % (2 ^ 64) = i := by omega
    have hlt : (i % (2 ^ 64)).toNat < 2 ^ 63 := by omega
    simp only [if_pos hlt, Option.some.injEq, Prod.mk.injEq]
    exact ⟨by omega, trivial⟩
  · have heq : i % (2 ^ 64) = i + 2 ^ 64 := by omega
    have hge : ¬ ((i % (2 ^ 64)).toNat < 2 ^ 63) := by omega
    simp only [if_neg hge, Option.some.injEq, Prod.mk.injEq]
    exact ⟨by omega, trivial⟩

theorem parseValueField_encode (v : Option (List Nat)) (rest : List Nat) :
    parseValueField (encodeValueField v ++ rest) = some (v, rest) := by
  cases v with
  | none =>
    rw [encodeValueField, parseValueField, varintDecode_encode]
  | some s =>
    rw [encodeValueField, List.append_assoc, parseValueField, varintDecode_encode]
    have h : s.length ≤ (s ++ rest).length := by simp
    simp [h, List.take_left, List.drop_left]

/-- A successful value-field parse leaves a strict suffix of the input. -/
theorem parseValueField_length {buf : List Nat} {v : Option (List Nat)}
    {rest : List Nat} (h : parseValueField buf = some (v, rest)) :
    rest.length < buf.length := by
  rw [parseValueField] at h
  cases hv : varintDecode buf with
  | none => rw [hv] at h; exact absurd h (by simp)
  | some p =>
    obtain ⟨len, r1⟩ := p
    rw [hv] at h
    have hvl := varintDecode_length hv
    match len, h with
    | 0, h =>
      simp only [Option.some.injEq, Prod.mk.injEq] at h
      have h2 := h.2
      subst h2
      exact hvl
    | l + 1, h =>
      by_cases hl : l ≤ r1.length
      · simp only [if_pos hl] at h
        injection h with h
        injection h with h1 h2
        have hr : rest.length ≤ r1.length := by
          rw [← h2]
          simp
        omega
      · simp [if_neg hl] at h

theorem parseRecord_encode (r : Record) (rest : List Nat) :
    parseRecord (recordWire r ++ rest) = some (r, rest) := by
  have hsplit : recordWire r ++ rest
      = encodeBytes r.key ++ (encodeValueField r.value
          ++ (chksum (recordBody r) :: rest)) := by
    simp [recordWire, recordBody]
  have hlen : (recordWire r ++ rest).length
      - (chksum (recordBody r) :: rest).length = (recordBody r).length := by
    simp [recordWire]
  have htake : (recordWire r ++ rest).take (recordBody r).length = recordBody r := by
    rw [recordWire, List.append_assoc, List.take_left]
  rw [parseRecord, hsplit]
  simp only [decodeBytes_encode, parseValueField_encode]
  rw [← hsplit, hlen, htake]
  simp

/-- A successful record parse consumes at least one byte. -/
theorem parseRecord_length {buf : List Nat} {r : Record} {rest : List Nat}
    (h : parseRecord buf = some (r, rest)) : rest.length < buf.length := by
  rw [parseRecord] at h
  cases hd : decodeBytes buf with
  | error e => rw [hd] at h; exact absurd h (by simp)
  | ok p =>
    obtain ⟨k, r1⟩ := p
    simp only [hd] at h
    have h1 := (decodeBytes_shape hd).1
    cases hv : parseValueField r1 with
    | none => simp [hv] at h
    | some q =>
      obtain ⟨v, r2⟩ := q
      simp only [hv] at h
      have h2 := parseValueField_length hv
      match r2, h, h2 with
      | c :: r3, h, h2 =>
        simp at h
        have h3 := h.2.2
        subst h3
        simp at h2
        omega

/-- The empty buffer holds no record. -/
theorem parseRecord_nil : parseRecord ([] : List Nat) = none := by
  rw [parseRecord]
  simp [decodeBytes, varintDecode]

theorem scanLogF_adequate : ∀ (f₁ f₂ : Nat) (buf : List Nat),
    buf.length ≤ f₁ → buf.length ≤ f₂ → scanLogF f₁ buf = scanLogF f₂ buf := by
  intro f₁
  induction f₁ with
  | zero =>
    intro f₂ buf h1 _
    have : buf = [] := List.eq_nil_of_length_eq_zero (by omega)
    subst this
    cases f₂ with
    | zero => rfl
    | succ f => simp [scanLogF, parseRecord_nil]
  | succ f ih =>
    intro f₂ buf h1 h2
    cases f₂ with
    | zero =>
      have : buf = [] := List.eq_nil_of_length_eq_zero (by omega)
      subst this
      simp [scanLogF, parseRecord_nil]
    | succ f' =>
      simp only [scanLogF]
      cases hp : parseRecord buf with
      | none => rfl
      | some p =>
        obtain ⟨r, rest⟩ := p
        have := parseRecord_length hp
        show r :: scanLogF f rest = r :: scanLogF f' rest
        rw [ih f' rest (by omega) (by omega)]

theorem scanUsedF_adequate : ∀ (f₁ f₂ : Nat) (buf : List Nat),
    buf.length ≤ f₁ → buf.length ≤ f₂ → scanUsedF f₁ buf = scanUsedF f₂ buf := by
  intro f₁
  induction f₁ with
  | zero =>
    intro f₂ buf h1 _
    have : buf = [] := List.eq_nil_of_length_eq_zero (by omega)
    subst this
    cases f₂ with
    | zero => rfl
    | succ f => simp [scanUsedF, parseRecord_nil]
  | succ f ih =>
    intro f₂ buf h1 h2
    cases f₂ with
    | zero =>
      have : buf = [] := List.eq_nil_of_length_eq_zero (by omega)
      subst this
      simp [scanUsedF, parseRecord_nil]
    | succ f' =>
      simp only [scanUsedF]
      cases hp : parseRecord buf with
      | none => rfl
      | some p =>
        obtain ⟨r, rest⟩ := p
        have := parseRecord_length hp
        show buf.length - rest.length + scanUsedF f rest
            = buf.length - rest.length + scanUsedF f' rest
        rw [ih f' rest (by omega) (by omega)]

/-- Scanning past one well-formed record continues with the rest. -/
theorem scanLog_cons (r : Record) (rest : List Nat) :
    scanLog (recordWire r ++ rest) = r :: scanLog rest := by
  have hlen : (recordWire r ++ rest).length = (recordWire r).length + rest.length := by
    simp
  have hpos : 1 ≤ (recordWire r).length := by
    rw [recordWire]
    simp
  rw [scanLog, hlen]
  have : (recordWire r).length + rest.length
      = ((recordWire r).length + rest.length - 1) + 1 := by omega
  rw [this, scanLogF, parseRecord_encode]
  show r :: scanLogF ((recordWire r).length + rest.length - 1) rest = r :: scanLog rest
  rw [scanLogF_adequate _ rest.length rest (by omega) (le_refl _)]
  rfl

/-- A buffer whose front is not a valid record scans to nothing. -/
theorem scanLog_stop {p : List Nat} (hp : parseRecord p = none) :
    scanLog p = [] := by
  rw [scanLog]
  cases h : p.length with
  | zero => rfl
  | succ n => rw [scanLogF, hp]

theorem scanUsed_cons (r : Record) (rest : List Nat) :
    scanUsed (recordWire r ++ rest) = (recordWire r).length + scanUsed rest := by
  have hlen : (recordWire r ++ rest).length = (recordWire r).length + rest.length := by
    simp
  have hpos : 1 ≤ (recordWire r).length := by
    rw [recordWire]
    simp
  rw [scanUsed, hlen]
  have : (recordWire r).length + rest.length
      = ((recordWire r).length + rest.length - 1) + 1 := by omega
  rw [this, scanUsedF, parseRecord_encode]
  show (recordWire r ++ rest).length - rest.length
      + scanUsedF ((recordWire r).length + rest.length - 1) rest
      = (recordWire r).length + scanUsed rest
  rw [scanUsedF_adequate _ rest.length rest (by omega) (le_refl _)]
  simp [scanUsed]

theorem scanUsed_stop {p : List Nat} (hp : parseRecord p = none) :
    scanUsed p = 0 := by
  rw [scanUsed]
  cases h : p.length with
  | zero => rfl
  | succ n => rw [scanUsedF, hp]

theorem encodeLog_nil : encodeLog [] = [] := rfl

theorem encodeLog_cons (r : Record) (rs : List Record) :
    encodeLog (r :: rs) = recordWire r ++ encodeLog rs := by
  simp [encodeLog]

theorem encodeLog_append (rs₁ rs₂ : List Record) :
    encodeLog (rs₁ ++ rs₂) = encodeLog rs₁ ++ encodeLog rs₂ := by
  simp [encodeLog]

/-- The scan of an intact encoded log followed by arbitrary trailing bytes
whose front is not a valid record recovers exactly the encoded records. -/
theorem scanLog_encodeLog_append (rs : List Record) (p : List Nat)
    (hp : parseRecord p = none) :
    scanLog (encodeLog rs ++ p) = rs := by
  induction rs with
  | nil => simpa [encodeLog_nil] using scanLog_stop hp
  | cons r rs ih =>
    rw [encodeLog_cons, List.append_assoc, scanLog_cons, ih]

/-- The recovery scan of an intact encoded log yields exactly its records. -/
theorem scanLog_encodeLog (rs : List Record) : scanLog (encodeLog rs) = rs := by
  have := scanLog_encodeLog_append rs [] parseRecord_nil
  simpa using this

theorem scanUsed_encodeLog_append (rs : List Record) (p : List Nat)
    (hp : parseRecord p = none) :
    scanUsed (encodeLog rs ++ p) = (encodeLog rs).length := by
  induction rs with
  | nil => simpa [encodeLog_nil] using scanUsed_stop hp
  | cons r rs ih =>
    rw [encodeLog_cons, List.append_assoc, scanUsed_cons, ih]
    simp

theorem indexGet_put (idx : IndexTable) (k v k' : List Nat) :
    indexGet (indexPut idx k v) k'
      = if k' = k then some v else indexGet idx k' := by
  induction idx with
  | nil =>
    by_cases h : k' = k
    · simp [indexPut, indexGet, List.find?, h]
    · have h' : ¬ k = k' := fun hc => h hc.symm
      simp [indexPut, indexGet, List.find?, h, h']
  | cons e idx ih =>
    by_cases he : e.1 = k
    · have : (indexPut (e :: idx) k v) = indexPut idx k v := by
        simp [indexPut, List.filter, he]
      rw [this, ih]
      by_cases h : k' = k
      · simp [h]
      · simp only [if_neg h]
        have hne : ¬ e.1 = k' := by rw [he]; exact fun hc => h hc.symm
        simp [indexGet, List.find?, hne]
    · have : (indexPut (e :: idx) k v) = e :: indexPut idx k v := by
        simp [indexPut, List.filter, he]
      rw [this]
      by_cases hek : e.1 = k'
      · have h : ¬ k' = k := fun hc => he (hek.trans hc)
        simp [indexGet, List.find?, hek, h]
      · simp only [indexGet, List.find?, hek]
        simp only [decide_eq_true_eq, if_neg hek, decide_False, Bool.false_eq_true]
        exact ih

theorem indexGet_remove (idx : IndexTable) (k k' : List Nat) :
    indexGet (indexRemove idx k) k'
      = if k' = k then none else indexGet idx k' := by
  induction idx with
  | nil => by_cases h : k' = k <;> simp [indexRemove, indexGet, List.find?, h]
  | cons e idx ih =>
    by_cases he : e.1 = k
    · have : (indexRemove (e :: idx) k) = indexRemove idx k := by
        simp [indexRemove, List.filter, he]
      rw [this, ih]
      by_cases h : k' = k
      · simp [h]
      · simp only [if_neg h]
        have hne : ¬ e.1 = k' := by rw [he]; exact fun hc => h hc.symm
        simp [indexGet, List.find?, hne]
    · have : (indexRemove (e :: idx) k) = e :: indexRemove idx k := by
        simp [indexRemove, List.filter, he]
      rw [this]
      by_cases hek : e.1 = k'
      · have h : ¬ k' = k := fun hc => he (hek.trans hc)
        simp [indexGet, List.find?, hek, h]
      · simp only [indexGet, List.find?, hek]
        simp only [decide_eq_true_eq, if_neg hek, decide_False, Bool.false_eq_true]
        exact ih

theorem indexGet_applyRecord (idx : IndexTable) (r : Record) (k : List Nat) :
    indexGet (applyRecord idx r) k
      = if k = r.key then r.value.map id |>.bind some |>.orElse (fun _ => none)
        else indexGet idx k := by
  cases hv : r.value with
  | none =>
    simp only [applyRecord, hv, indexGet_remove]
    by_cases h : k = r.key <;> simp [h]
  | some v =>
    simp only [applyRecord, hv, indexGet_put]
    by_cases h : k = r.key <;> simp [h]

theorem lastWrite_nil (k : List Nat) : lastWrite [] k = none := rfl

theorem lastWrite_append_one (rs : List Record) (r : Record) (k : List Nat) :
    lastWrite (rs ++ [r]) k
      = if r.key = k then r.value else lastWrite rs k := by
  by_cases h : r.key = k <;>
    simp [lastWrite, List.find?, h]

/-- The rebuilt index answers `get` with the latest record for the key:
last writer wins. -/
theorem indexGet_buildIndex (rs : List Record) (k : List Nat) :
    indexGet (buildIndex rs) k = lastWrite rs k := by
  induction rs using List.reverseRecOn with
  | nil => simp [buildIndex, lastWrite, indexGet, List.find?]
  | append_singleton rs r ih =>
    rw [lastWrite_append_one]
    have hb : buildIndex (rs ++ [r]) = applyRecord (buildIndex rs) r := by
      simp [buildIndex]
    rw [hb]
    cases hv : r.value with
    | none =>
      simp only [applyRecord, hv, indexGet_remove]
      by_cases h : k = r.key
      · simp [h]
      · have h' : ¬ r.key = k := fun hc => h hc.symm
        simp [h, h', ih]
    | some v =>
      simp only [applyRecord, hv, indexGet_put]
      by_cases h : k = r.key
      · simp [h]
      · have h' : ¬ r.key = k := fun hc => h hc.symm
        simp [h, h', ih]

/-- The index keys are duplicate-free: at most one live entry per key. -/
theorem allKeys_nodup (rs : List Record) : (allKeys (buildIndex rs)).Nodup := by
  suffices h : ∀ idx : IndexTable, (allKeys idx).Nodup →
      (allKeys (rs.foldl applyRecord idx)).Nodup by
    exact h [] (by simp [allKeys])
  induction rs with
  | nil => intro idx h; exact h
  | cons r rs ih =>
    intro idx h
    simp only [List.foldl_cons]
    apply ih
    cases hv : r.value with
    | none =>
      simp only [applyRecord, hv, indexRemove]
      exact List.Nodup.sublist (List.Sublist.map Prod.fst (List.filter_sublist idx)) h
    | some v =>
      simp only [applyRecord, hv, indexPut, allKeys, List.map_append]
      rw [List.nodup_append]
      refine ⟨List.Nodup.sublist (List.Sublist.map Prod.fst (List.filter_sublist idx)) h,
        List.nodup_singleton _, ?_⟩
      intro a ha
      simp only [List.mem_map, List.mem_filter] at ha
      obtain ⟨e, ⟨hmem, hfil⟩, hfst⟩ := ha
      simp only [List.map_cons, List.map_nil, List.mem_singleton]
      intro hak
      rw [hak] at hfst
      simp [hfst] at hfil

/-- Key membership count after a put: the key is live exactly once. -/
theorem count_allKeys_put (idx : IndexTable) (k v : List Nat) :
    (allKeys (indexPut idx k v)).count k = 1 := by
  simp only [indexPut, allKeys, List.map_append, List.count_append]
  have h0 : (List.map Prod.fst (idx.filter (fun e => !decide (e.1 = k)))).count k = 0 := by
    rw [List.count_eq_zero]
    intro hmem
    simp only [List.mem_map, List.mem_filter] at hmem
    obtain ⟨e, ⟨hmem, hfil⟩, hfst⟩ := hmem
    simp [hfst] at hfil
  rw [h0]
  simp [List.count_cons]

theorem Engine.set_ofRecords (rs : List Record) (k v : List Nat) :
    (Engine.ofRecords rs).set k v = Engine.ofRecords (rs ++ [⟨k, some v⟩]) := by
  simp [Engine.ofRecords, Engine.set, encodeLog_append, encodeLog_cons, encodeLog_nil]

theorem Engine.remove_ofRecords (rs : List Record) (k : List Nat) :
    (Engine.ofRecords rs).remove k = Engine.ofRecords (rs ++ [⟨k, none⟩]) := by
  simp [Engine.ofRecords, Engine.remove, encodeLog_append, encodeLog_cons, encodeLog_nil]

theorem Engine.index_ofRecords (rs : List Record) :
    (Engine.ofRecords rs).index = buildIndex rs := by
  simp [Engine.ofRecords, Engine.index, scanLog_encodeLog]

theorem Engine.get_ofRecords (rs : List Record) (k : List Nat) :
    (Engine.ofRecords rs).get k = lastWrite rs k := by
  rw [Engine.get, Engine.index_ofRecords, indexGet_buildIndex]

theorem foldl_applyRecord_live (idx : IndexTable) : ∀ acc : IndexTable,
    (allKeys (acc ++ idx)).Nodup →
    List.foldl applyRecord acc (liveAsRecords idx) = acc ++ idx := by
  induction idx with
  | nil => intro acc _; simp [liveAsRecords]
  | cons kv idx ih =>
    intro acc hnd
    have hnotin : ∀ a ∈ acc, ¬ a.1 = kv.1 := by
      intro a ha hak
      rw [allKeys, List.map_append, List.nodup_append] at hnd
      have hdisj := hnd.2.2
      have h1 : a.1 ∈ acc.map Prod.fst := List.mem_map_of_mem Prod.fst ha
      apply hdisj h1
      rw [hak]
      simp
    have hput : applyRecord acc ⟨kv.1, some kv.2⟩ = acc ++ [kv] := by
      show acc.filter (fun e => !decide (e.1 = kv.1)) ++ [(kv.1, kv.2)] = acc ++ [kv]
      have hf : acc.filter (fun e => !decide (e.1 = kv.1)) = acc :=
        List.filter_eq_self.mpr (fun a ha => by simp [hnotin a ha])
      rw [hf]
    rw [liveAsRecords, List.map_cons, List.foldl_cons, hput, ← liveAsRecords]
    have hnd2 : (allKeys ((acc ++ [kv]) ++ idx)).Nodup := by
      simpa [allKeys] using hnd
    rw [ih (acc ++ [kv]) hnd2]
    simp

/-- Rebuilding the index from exactly the live records reproduces the index. -/
theorem buildIndex_liveAsRecords (idx : IndexTable)
    (hnd : (allKeys idx).Nodup) : buildIndex (liveAsRecords idx) = idx := by
  have := foldl_applyRecord_live idx [] (by simpa using hnd)
  simpa [buildIndex] using this

theorem indexGet_eq_none_iff (idx : IndexTable) (k : List Nat) :
    indexGet idx k = none ↔ k ∉ allKeys idx := by
  induction idx with
  | nil => simp [indexGet, List.find?, allKeys]
  | cons e idx ih =>
    by_cases he : e.1 = k
    · have hstep : indexGet (e :: idx) k = some e.2 := by
        simp [indexGet, List.find?, he]
      rw [hstep]
      simp [allKeys, ← he]
    · have hne : ¬ k = e.1 := fun hc => he hc.symm
      have hstep : indexGet (e :: idx) k = indexGet idx k := by
        simp [indexGet, List.find?, he]
      rw [hstep, ih]
      simp [allKeys, hne]

theorem indexGet_eq_some_iff (idx : IndexTable) (k v : List Nat)
    (hnd : (allKeys idx).Nodup) :
    indexGet idx k = some v ↔ (k, v) ∈ idx := by
  induction idx with
  | nil => simp [indexGet, List.find?]
  | cons e idx ih =>
    have hnd2 : (allKeys idx).Nodup := by
      rw [allKeys, List.map_cons, List.nodup_cons] at hnd
      exact hnd.2
    have hhead : e.1 ∉ allKeys idx := by
      rw [allKeys, List.map_cons, List.nodup_cons] at hnd
      exact hnd.1
    by_cases he : e.1 = k
    · have hstep : indexGet (e :: idx) k = some e.2 := by
        simp [indexGet, List.find?, he]
      rw [hstep]
      constructor
      · intro h
        have hv : e.2 = v := Option.some.inj h
        have hkv : (k, v) = e := Prod.ext he.symm hv.symm
        rw [hkv]
        exact List.mem_cons_self e idx
      · intro h
        cases h with
        | head => rfl
        | tail _ h =>
          exfalso
          apply hhead
          rw [he]
          exact List.mem_map_of_mem Prod.fst h
    · have hne : ¬ k = e.1 := fun hc => he hc.symm
      have hstep : indexGet (e :: idx) k = indexGet idx k := by
        simp [indexGet, List.find?, he]
      rw [hstep, ih hnd2]
      constructor
      · intro h
        exact List.mem_cons_of_mem e h
      · intro h
        cases h with
        | head => exact absurd rfl hne
        | tail _ h => exact h

/-- `get` is invariant under permutation of a duplicate-free index. -/
theorem indexGet_perm (idx₁ idx₂ : IndexTable) (hperm : idx₁.Perm idx₂)
    (hnd : (allKeys idx₂).Nodup) (k : List Nat) :
    indexGet idx₁ k = indexGet idx₂ k := by
  have hnd1 : (allKeys idx₁).Nodup := by
    rw [allKeys]
    exact (List.Perm.nodup_iff (List.Perm.map Prod.fst hperm)).mpr hnd
  cases hg : indexGet idx₂ k with
  | none =>
    rw [indexGet_eq_none_iff]
    rw [indexGet_eq_none_iff] at hg
    intro hc
    exact hg ((List.Perm.mem_iff (List.Perm.map Prod.fst hperm)).mp hc)
  | some v =>
    rw [indexGet_eq_some_iff idx₁ k v hnd1]
    rw [indexGet_eq_some_iff idx₂ k v hnd] at hg
    exact (List.Perm.mem_iff hperm).mpr hg

theorem xorStream_involutive (key : List Nat) : ∀ (off : Nat) (data : List Nat),
    xorStream key off (xorStream key off data) = data := by
  intro off data
  induction data generalizing off with
  | nil => rfl
  | cons b bs ih =>
    rw [xorStream, xorStream, ih (off + 1), Nat.xor_cancel_right]

theorem xorStream_length (key : List Nat) : ∀ (off : Nat) (data : List Nat),
    (xorStream key off data).length = data.length := by
  intro off data
  induction data generalizing off with
  | nil => rfl
  | cons b bs ih => rw [xorStream, List.length_cons, List.length_cons, ih (off + 1)]

theorem pageRound_mod (ps n : Nat) : pageRound ps n % ps = 0 :=
  Nat.mul_mod_left _ _

theorem le_pageRound (ps n : Nat) (hps : 0 < ps) : n ≤ pageRound ps n := by
  rw [pageRound]
  have h1 := Nat.div_add_mod (n + ps - 1) ps
  have h2 : (n + ps - 1) % ps < ps := Nat.mod_lt _ hps
  rw [Nat.mul_comm]
  omega

theorem decodeBoolD_fst (e : Engine) (k : List Nat) (d : Bool) :
    (decodeBoolD e k d).1 = decOr decodeBool d (e.get k) := by
  cases hget : e.get k with
  | none => simp [decodeBoolD, decOr, hget]
  | some bytes =>
    cases hdec : decodeBool bytes with
    | none => simp [decodeBoolD, decOr, hget, hdec]
    | some p =>
      obtain ⟨v, rest⟩ := p
      simp [decodeBoolD, decOr, hget, hdec]

theorem decodeInt32D_fst (e : Engine) (k : List Nat) (d : Int) :
    (decodeInt32D e k d).1 = decOr decodeInt32 d (e.get k) := by
  cases hget : e.get k with
  | none => simp [decodeInt32D, decOr, hget]
  | some bytes =>
    cases hdec : decodeInt32 bytes with
    | none => simp [decodeInt32D, decOr, hget, hdec]
    | some p =>
      obtain ⟨v, rest⟩ := p
      simp [decodeInt32D, decOr, hget, hdec]

theorem decodeUInt32D_fst (e : Engine) (k : List Nat) (d : Nat) :
    (decodeUInt32D e k d).1 = decOr decodeUInt32 d (e.get k) := by
  cases hget : e.get k with
  | none => simp [decodeUInt32D, decOr, hget]
  | some bytes =>
    cases hdec : decodeUInt32 bytes with
    | none => simp [decodeUInt32D, decOr, hget, hdec]
    | some p =>
      obtain ⟨v, rest⟩ := p
      simp [decodeUInt32D, decOr, hget, hdec]

theorem decodeInt64D_fst (e : Engine) (k : List Nat) (d : Int) :
    (decodeInt64D e k d).1 = decOr decodeInt64 d (e.get k) := by
  cases hget : e.get k with
  | none => simp [decodeInt64D, decOr, hget]
  | some bytes =>
    cases hdec : decodeInt64 bytes with
    | none => simp [decodeInt64D, decOr, hget, hdec]
    | some p =>
      obtain ⟨v, rest⟩ := p
      simp [decodeInt64D, decOr, hget, hdec]

theorem decodeUInt64D_fst (e : Engine) (k : List Nat) (d : Nat) :
    (decodeUInt64D e k d).1 = decOr decodeUInt64 d (e.get k) := by
  cases hget : e.get k with
  | none => simp [decodeUInt64D, decOr, hget]
  | some bytes =>
    cases hdec : decodeUInt64 bytes with
    | none => simp [decodeUInt64D, decOr, hget, hdec]
    | some p =>
      obtain ⟨v, rest⟩ := p
      simp [decodeUInt64D, decOr, hget, hdec]

theorem decodeFloatD_fst (e : Engine) (k : List Nat) (d : Nat) :
    (decodeFloatD e k d).1 = decOr decodeFloat d (e.get k) := by
  cases hget : e.get k with
  | none => simp [decodeFloatD, decOr, hget]
  | some bytes =>
    cases hdec : decodeFloat bytes with
    | none => simp [decodeFloatD, decOr, hget, hdec]
    | some p =>
      obtain ⟨v, rest⟩ := p
      simp [decodeFloatD, decOr, hget, hdec]

theorem decodeDoubleD_fst (e : Engine) (k : List Nat) (d : Nat) :
    (decodeDoubleD e k d).1 = decOr decodeDouble d (e.get k) := by
  cases hget : e.get k with
  | none => simp [decodeDoubleD, decOr, hget]
  | some bytes =>
    cases hdec : decodeDouble bytes with
    | none => simp [decodeDoubleD, decOr, hget, hdec]
    | some p =>
      obtain ⟨v, rest⟩ := p
      simp [decodeDoubleD, decOr, hget, hdec]

/-! ## Claims -/

/-- C1: appending N records and then crashing mid-write of record N+1 — the
trailing bytes are partial and their checksum missing or invalid, so they do
not parse as a record — yields on reopen exactly the IndexTable built from
the first N records alone; the recovery scan truncates used-size back to the
end of the last checksum-valid record, and `recover` is a total function, so
the open never fails on account of the corruption. -/
theorem C1_crash_recovery (rs : List Record) (crashBytes : List Nat)
    (hcrash : parseRecord crashBytes = none) :
    recover (encodeLog rs ++ crashBytes) = recover (encodeLog rs)
    ∧ (recover (encodeLog rs ++ crashBytes)).1 = buildIndex rs
    ∧ (recover (encodeLog rs ++ crashBytes)).2 = (encodeLog rs).length := by
  have h1 := scanLog_encodeLog_append rs crashBytes hcrash
  have h2 := scanUsed_encodeLog_append rs crashBytes hcrash
  have h3 := scanLog_encodeLog rs
  have h4 := scanUsed_encodeLog_append rs [] parseRecord_nil
  rw [show encodeLog rs ++ [] = encodeLog rs from by simp] at h4
  exact ⟨by rw [recover, recover, h1, h2, h3, h4],
    by rw [recover, h1],
    by rw [recover, h2]⟩

theorem C1_crash_recovery_witness :
    parseRecord [5] = none
    ∧ recover (encodeLog [⟨[1], some [2]⟩] ++ [5]) = recover (encodeLog [⟨[1], some [2]⟩]) :=
  ⟨by decide, (C1_crash_recovery [⟨[1], some [2]⟩] [5] (by decide)).1⟩

/-- C2: for every supported value — boolean, 32/64-bit signed integer in
two's-complement range, 32/64-bit unsigned integer in range, 32/64-bit float
bit pattern, byte string — decoding the encoding yields the value back, and
decoding consumes exactly the declared bytes: an arbitrary appended suffix
`r` is returned untouched. -/
theorem C2_roundtrip (b : Bool) (u32 u64 f32 f64 : Nat) (i32 i64 : Int)
    (s r : List Nat)
    (hu32 : u32 < 2 ^ 32) (hu64 : u64 < 2 ^ 64)
    (hf32 : f32 < 2 ^ 32) (hf64 : f64 < 2 ^ 64)
    (hi32l : -(2 ^ 31) ≤ i32) (hi32h : i32 < 2 ^ 31)
    (hi64l : -(2 ^ 63) ≤ i64) (hi64h : i64 < 2 ^ 63) :
    decodeBool (encodeBool b ++ r) = some (b, r)
    ∧ decodeInt32 (encodeInt32 i32 ++ r) = some (i32, r)
    ∧ decodeUInt32 (encodeUInt32 u32 ++ r) = some (u32, r)
    ∧ decodeInt64 (encodeInt64 i64 ++ r) = some (i64, r)
    ∧ decodeUInt64 (encodeUInt64 u64 ++ r) = some (u64, r)
    ∧ decodeFloat (encodeFloat f32 ++ r) = some (f32, r)
    ∧ decodeDouble (encodeDouble f64 ++ r) = some (f64, r)
    ∧ decodeBytes (encodeBytes s ++ r) = .ok (s, r) := by
  have h32 : (256 : Nat) ^ 4 = 2 ^ 32 := by norm_num
  have h64 : (256 : Nat) ^ 8 = 2 ^ 64 := by norm_num
  exact ⟨decodeBool_encode b r,
    decodeInt32_encode i32 r hi32l hi32h,
    fixedDecode_encode 4 u32 r (by omega),
    decodeInt64_encode i64 r hi64l hi64h,
    fixedDecode_encode 8 u64 r (by omega),
    fixedDecode_encode 4 f32 r (by omega),
    fixedDecode_encode 8 f64 r (by omega),
    decodeBytes_encode s r⟩

theorem C2_roundtrip_witness :
    decodeBool (encodeBool true ++ [9]) = some (true, [9])
    ∧ decodeInt32 (encodeInt32 (-5) ++ [9]) = some (-5, [9])
    ∧ decodeBytes (encodeBytes [1, 2] ++ [9]) = .ok ([1, 2], [9]) :=
  have h := C2_roundtrip true 7 7 7 7 (-5) (-5) [1, 2] [9]
    (by norm_num) (by norm_num) (by norm_num) (by norm_num)
    (by norm_num) (by norm_num) (by norm_num) (by norm_num)
  ⟨h.1, h.2.1, h.2.2.2.2.2.2.2⟩

/-- C3: writing key K with v1 then v2 makes `get(K)` return v2 and
`allKeys()` contain K exactly once; in general, for every record sequence,
the rebuilt IndexTable has duplicate-free keys — at most one live entry per
key — and answers `get` with the most recent record for each key; since
set/remove/append only extend the record sequence, every such operation
preserves this invariant. -/
theorem C3_last_writer_wins (rs : List Record) (K v1 v2 : List Nat) :
    (((Engine.ofRecords rs).set K v1).set K v2).get K = some v2
    ∧ ((((Engine.ofRecords rs).set K v1).set K v2).keys).count K = 1
    ∧ (∀ rs' : List Record, (allKeys (buildIndex rs')).Nodup)
    ∧ (∀ (rs' : List Record) (k : List Nat),
        indexGet (buildIndex rs') k = lastWrite rs' k) := by
  have e2 : ((Engine.ofRecords rs).set K v1).set K v2
      = Engine.ofRecords ((rs ++ [⟨K, some v1⟩]) ++ [⟨K, some v2⟩]) := by
    rw [Engine.set_ofRecords, Engine.set_ofRecords]
  refine ⟨?_, ?_, allKeys_nodup, indexGet_buildIndex⟩
  · rw [e2, Engine.get_ofRecords, lastWrite_append_one]
    simp
  · have hb : buildIndex ((rs ++ [⟨K, some v1⟩]) ++ [⟨K, some v2⟩])
        = indexPut (buildIndex (rs ++ [⟨K, some v1⟩])) K v2 := by
      simp [buildIndex, applyRecord]
    rw [e2, Engine.keys, Engine.index_ofRecords, hb]
    exact count_allKeys_put _ K v2

/-- C6: decoding a byte string whose length prefix is truncated fails with
`FormatError.truncatedVarint`; one whose declared length exceeds the bytes
remaining fails with `FormatError.lengthExceedsBuffer`; and every successful
decode stays inside the buffer — the value and the unconsumed rest partition
a suffix of the input, so the decoder never reads out of bounds. -/
theorem C6_decode_bounds (buf : List Nat) :
    (varintDecode buf = none → decodeBytes buf = .error .truncatedVarint)
    ∧ (∀ len rest, varintDecode buf = some (len, rest) → rest.length < len →
        decodeBytes buf = .error .lengthExceedsBuffer)
    ∧ (∀ v rest, decodeBytes buf = .ok (v, rest) →
        v.length + rest.length ≤ buf.length ∧ ∃ pre, buf = pre ++ v ++ rest) := by
  refine ⟨?_, ?_, ?_⟩
  · intro h
    rw [decodeBytes, h]
  · intro len rest h hlen
    rw [decodeBytes, h]
    have hn : ¬ len ≤ rest.length := by omega
    simp [hn]
  · intro v rest h
    obtain ⟨hlt, pre, hpre⟩ := decodeBytes_shape h
    refine ⟨?_, pre, hpre⟩
    have hl : buf.length = (pre ++ v ++ rest).length := by rw [hpre]
    simp only [List.length_append] at hl
    omega

theorem C6_decode_bounds_witness :
    decodeBytes [200] = .error .truncatedVarint
    ∧ decodeBytes [5] = .error .lengthExceedsBuffer
    ∧ [9].length + List.length ([] : List Nat) ≤ (encodeBytes [9]).length :=
  ⟨(C6_decode_bounds [200]).1 (by decide),
   (C6_decode_bounds [5]).2.1 5 [] (by decide) (by decide),
   ((C6_decode_bounds (encodeBytes [9])).2.2 [9] [] (by rfl)).1⟩

/-- C4: reKey is atomic with respect to observable store state.  Every disk
state a crash can expose during `reKey(newKey)` on a store fully encrypted
under the old key is either wholly under the old key — the main region is the
old-key ciphertext and the store reads back intact under the old key — or,
from the final atomic swap on, wholly under the new key, reading back intact
under the new key; no state mixes records under different keys. -/
theorem C4_rekey_atomic (rs : List Record) (oldKey newKey : List Nat) :
    ∀ st ∈ rekeyStates oldKey newKey ⟨xorStream oldKey 0 (encodeLog rs), []⟩,
      (st.main = xorStream oldKey 0 (encodeLog rs) ∧ readUnder oldKey st = rs)
      ∨ (st.main = xorStream newKey 0 (encodeLog rs) ∧ readUnder newKey st = rs) := by
  intro st hst
  have hplain : xorStream oldKey 0 (xorStream oldKey 0 (encodeLog rs)) = encodeLog rs :=
    xorStream_involutive oldKey 0 (encodeLog rs)
  rw [rekeyStates, List.mem_append] at hst
  cases hst with
  | inl h =>
    rw [List.mem_map] at h
    obtain ⟨i, _, hstq⟩ := h
    left
    constructor
    · rw [← hstq]
    · rw [← hstq, readUnder]
      show scanLog (xorStream oldKey 0 (xorStream oldKey 0 (encodeLog rs))) = rs
      rw [hplain, scanLog_encodeLog]
  | inr h =>
    rw [List.mem_singleton] at h
    right
    constructor
    · rw [h]
      show xorStream newKey 0 (encodeLog (scanLog (xorStream oldKey 0
          (xorStream oldKey 0 (encodeLog rs))))) = xorStream newKey 0 (encodeLog rs)
      rw [hplain, scanLog_encodeLog]
    · rw [h, readUnder]
      show scanLog (xorStream newKey 0 (xorStream newKey 0 (encodeLog (scanLog
          (xorStream oldKey 0 (xorStream oldKey 0 (encodeLog rs))))))) = rs
      rw [hplain, scanLog_encodeLog, xorStream_involutive, scanLog_encodeLog]

theorem C4_rekey_atomic_witness :
    ((⟨xorStream [3] 0 (encodeLog [⟨[1], some [2]⟩]), []⟩ : CryptDisk).main
        = xorStream [3] 0 (encodeLog [⟨[1], some [2]⟩])
      ∧ readUnder [3] ⟨xorStream [3] 0 (encodeLog [⟨[1], some [2]⟩]), []⟩
        = [⟨[1], some [2]⟩])
    ∨ ((⟨xorStream [3] 0 (encodeLog [⟨[1], some [2]⟩]), []⟩ : CryptDisk).main
        = xorStream [4] 0 (encodeLog [⟨[1], some [2]⟩])
      ∧ readUnder [4] ⟨xorStream [3] 0 (encodeLog [⟨[1], some [2]⟩]), []⟩
        = [⟨[1], some [2]⟩]) :=
  C4_rekey_atomic [⟨[1], some [2]⟩] [3] [4]
    ⟨xorStream [3] 0 (encodeLog [⟨[1], some [2]⟩]), []⟩ (by decide)

/-- C5: trimming a store whose log holds zero dead (superseded or
tombstoned) bytes preserves the full key/value mapping: `get` answers
identically for every key, and `allKeys` is preserved up to permutation —
the physical layout, and hence the enumeration order, may change. -/
theorem C5_trim_preserves (rs : List Record)
    (hdead : (Engine.ofRecords rs).deadBytes = 0) :
    (∀ k, ((Engine.ofRecords rs).trim).get k = (Engine.ofRecords rs).get k)
    ∧ List.Perm (((Engine.ofRecords rs).trim).keys) ((Engine.ofRecords rs).keys) := by
  have hidx : (Engine.ofRecords rs).index = buildIndex rs := Engine.index_ofRecords rs
  have hnd : (allKeys ((Engine.ofRecords rs).index)).Nodup := by
    rw [hidx]
    exact allKeys_nodup rs
  have hperm : List.Perm (List.insertionSort keyOrder ((Engine.ofRecords rs).index))
      ((Engine.ofRecords rs).index) := List.perm_insertionSort _ _
  have hndsorted :
      (allKeys (List.insertionSort keyOrder ((Engine.ofRecords rs).index))).Nodup :=
    (List.Perm.nodup_iff (List.Perm.map Prod.fst hperm)).mpr hnd
  have htrimidx : ((Engine.ofRecords rs).trim).index
      = List.insertionSort keyOrder ((Engine.ofRecords rs).index) := by
    have hdata : ((Engine.ofRecords rs).trim).data
        = encodeLog (liveAsRecords (List.insertionSort keyOrder
            ((Engine.ofRecords rs).index))) := rfl
    rw [Engine.index, hdata, scanLog_encodeLog]
    exact buildIndex_liveAsRecords _ hndsorted
  constructor
  · intro k
    rw [Engine.get, Engine.get, htrimidx]
    exact indexGet_perm _ _ hperm hnd k
  · rw [Engine.keys, Engine.keys, htrimidx]
    exact List.Perm.map Prod.fst hperm

theorem C5_trim_preserves_witness :
    (Engine.ofRecords [⟨[1], some [2]⟩]).deadBytes = 0
    ∧ ((Engine.ofRecords [⟨[1], some [2]⟩]).trim).get [1]
        = (Engine.ofRecords [⟨[1], some [2]⟩]).get [1]
    ∧ List.Perm (((Engine.ofRecords [⟨[1], some [2]⟩]).trim).keys)
        ((Engine.ofRecords [⟨[1], some [2]⟩]).keys) :=
  ⟨by decide,
   (C5_trim_preserves [⟨[1], some [2]⟩] (by decide)).1 [1],
   (C5_trim_preserves [⟨[1], some [2]⟩] (by decide)).2⟩

/-- C7: growing a mapped region to hold a larger requested size rounds the
new mapped size up to a multiple of the OS page size, the requested size
fits, every newly added byte reads zero, the content span matches the mapped
size, and the invariant used-size ≤ mapped-size holds after the grow as it
did before. -/
theorem C7_grow_pagesize_zero_fill (ps : Nat) (f : MemFile) (newSize : Nat)
    (hps : 0 < ps)
    (hinv : f.usedSize ≤ f.mappedSize)
    (hlen : f.content.length = f.mappedSize)
    (hgrow : f.mappedSize ≤ newSize) :
    ((f.grow ps newSize).mappedSize % ps = 0)
    ∧ newSize ≤ (f.grow ps newSize).mappedSize
    ∧ (f.grow ps newSize).usedSize ≤ (f.grow ps newSize).mappedSize
    ∧ (f.grow ps newSize).content.length = (f.grow ps newSize).mappedSize
    ∧ ∀ i, f.mappedSize ≤ i → i < (f.grow ps newSize).mappedSize →
        (f.grow ps newSize).content[i]? = some 0 := by
  have hle := le_pageRound ps newSize hps
  refine ⟨pageRound_mod ps newSize, hle, ?_, ?_, ?_⟩
  · show f.usedSize ≤ pageRound ps newSize
    omega
  · show (f.content ++ List.replicate (pageRound ps newSize - f.mappedSize) 0).length
        = pageRound ps newSize
    simp only [List.length_append, List.length_replicate, hlen]
    omega
  · intro i h1 h2
    show (f.content ++ List.replicate (pageRound ps newSize - f.mappedSize) 0)[i]?
        = some 0
    have h2a : i < pageRound ps newSize := h2
    rw [List.getElem?_append_right (by omega), hlen]
    exact List.getElem?_replicate_of_lt (by omega)

theorem C7_grow_pagesize_zero_fill_witness :
    ((MemFile.grow 4 ⟨2, 1, [7, 8]⟩ 5).mappedSize % 4 = 0)
    ∧ 5 ≤ (MemFile.grow 4 ⟨2, 1, [7, 8]⟩ 5).mappedSize
    ∧ (MemFile.grow 4 ⟨2, 1, [7, 8]⟩ 5).content[3]? = some 0 :=
  have h := C7_grow_pagesize_zero_fill 4 ⟨2, 1, [7, 8]⟩ 5
    (by decide) (by decide) (by decide) (by decide)
  ⟨h.1, h.2.1, h.2.2.2.2 3 (by decide) (by
    have := h.2.1
    omega)⟩

/-- C8 counterexample: the binding header declares `removeValueForKey` with
return type `void`, so that call has no status or value channel at all — it
cannot convey a failure through its return value, contradicting the claim
that each listed binding call does. -/
theorem C8_void_return_counterexample :
    retOf ("removeValueForKey") = some CRet.cVoid
    ∧ conveysStatus CRet.cVoid = false := by
  exact ⟨by decide, rfl⟩

/-- C8 (amended): every failure of a binding-boundary operation that is
reported at all crosses to the foreign caller as a status or boolean return
value, never as a raised exception — every call, even on a failed (closed)
Engine, returns an ordinary value through exactly the C channel the header
declares for it; each binding call maps onto exactly one Engine operation
(`opOfCall`), and the dispatch is a pure function of the call and the
explicitly passed store state, carrying no hidden state; the non-void calls
convey their failure through their return value — `encode*` and `reKey`
return the status boolean (`false` on a failed Engine), each typed `decode*`
returns its decoded value or the caller's default through its typed channel,
and `decodeBytes` the bytes or null — while the void-declared calls
(`removeValueForKey`, `clearAll`, `trim`, `mmkvSync`, `mmkvClose`) always
return nothing, conveying no failure indication. -/
theorem C8_bridge_boundary :
    (∀ (c : BridgeCall) (st : EngineState),
      retOf (nameOfCall c) = some (cretOf (bridgeDispatch c st).2))
    ∧ (∀ (c : BridgeCall) (st : EngineState),
      (bridgeDispatch c st).1 = (engineStep (opOfCall c) st).1)
    ∧ (∀ (k : List Nat) (st : EngineState),
      (bridgeDispatch (.cRemoveValueForKey k) st).2 = CValue.retUnit
      ∧ (bridgeDispatch .cClearAll st).2 = CValue.retUnit
      ∧ (bridgeDispatch .cTrim st).2 = CValue.retUnit
      ∧ (bridgeDispatch .cMmkvSync st).2 = CValue.retUnit
      ∧ (bridgeDispatch .cMmkvClose st).2 = CValue.retUnit)
    ∧ (∀ (k v : List Nat) (b : Bool) (i : Int) (n : Nat),
      (bridgeDispatch (.cEncodeBool k b) .closed).2 = CValue.retBool false
      ∧ (bridgeDispatch (.cEncodeInt32 k i) .closed).2 = CValue.retBool false
      ∧ (bridgeDispatch (.cEncodeUInt32 k n) .closed).2 = CValue.retBool false
      ∧ (bridgeDispatch (.cEncodeInt64 k i) .closed).2 = CValue.retBool false
      ∧ (bridgeDispatch (.cEncodeUInt64 k n) .closed).2 = CValue.retBool false
      ∧ (bridgeDispatch (.cEncodeFloat k n) .closed).2 = CValue.retBool false
      ∧ (bridgeDispatch (.cEncodeDouble k n) .closed).2 = CValue.retBool false
      ∧ (bridgeDispatch (.cEncodeBytes k v) .closed).2 = CValue.retBool false
      ∧ (bridgeDispatch (.cReKey k) .closed).2 = CValue.retBool false)
    ∧ (∀ (e : Engine) (k : List Nat) (b : Bool) (i : Int) (n : Nat),
      (bridgeDispatch (.cDecodeBool k b) (.openSt e)).2
        = CValue.retBool (decodeBoolD e k b).1
      ∧ (bridgeDispatch (.cDecodeInt32 k i) (.openSt e)).2
        = CValue.retInt32 (decodeInt32D e k i).1
      ∧ (bridgeDispatch (.cDecodeUInt32 k n) (.openSt e)).2
        = CValue.retUInt32 (decodeUInt32D e k n).1
      ∧ (bridgeDispatch (.cDecodeInt64 k i) (.openSt e)).2
        = CValue.retInt64 (decodeInt64D e k i).1
      ∧ (bridgeDispatch (.cDecodeUInt64 k n) (.openSt e)).2
        = CValue.retUInt64 (decodeUInt64D e k n).1
      ∧ (bridgeDispatch (.cDecodeFloat k n) (.openSt e)).2
        = CValue.retFloat (decodeFloatD e k n).1
      ∧ (bridgeDispatch (.cDecodeDouble k n) (.openSt e)).2
        = CValue.retDouble (decodeDoubleD e k n).1
      ∧ (bridgeDispatch (.cDecodeBytes k) (.openSt e)).2
        = CValue.retBytes (e.get k))
    ∧ (∀ (k : List Nat) (b : Bool) (i : Int) (n : Nat),
      (bridgeDispatch (.cDecodeBool k b) .closed).2 = CValue.retBool b
      ∧ (bridgeDispatch (.cDecodeInt32 k i) .closed).2 = CValue.retInt32 i
      ∧ (bridgeDispatch (.cDecodeUInt32 k n) .closed).2 = CValue.retUInt32 n
      ∧ (bridgeDispatch (.cDecodeInt64 k i) .closed).2 = CValue.retInt64 i
      ∧ (bridgeDispatch (.cDecodeUInt64 k n) .closed).2 = CValue.retUInt64 n
      ∧ (bridgeDispatch (.cDecodeFloat k n) .closed).2 = CValue.retFloat n
      ∧ (bridgeDispatch (.cDecodeDouble k n) .closed).2 = CValue.retDouble n
      ∧ (bridgeDispatch (.cDecodeBytes k) .closed).2 = CValue.retBytes none) := by
  refine ⟨?_, ?_, ?_, ?_, ?_, ?_⟩
  · intro c st
    cases c <;> cases st <;> rfl
  · intro c st
    rfl
  · intro k st
    cases st <;> exact ⟨rfl, rfl, rfl, rfl, rfl⟩
  · intro k v b i n
    exact ⟨rfl, rfl, rfl, rfl, rfl, rfl, rfl, rfl, rfl⟩
  · intro e k b i n
    refine ⟨?_, ?_, ?_, ?_, ?_, ?_, ?_, rfl⟩
    · rw [decodeBoolD_fst]
      exact rfl
    · rw [decodeInt32D_fst]
      exact rfl
    · rw [decodeUInt32D_fst]
      exact rfl
    · rw [decodeInt64D_fst]
      exact rfl
    · rw [decodeUInt64D_fst]
      exact rfl
    · rw [decodeFloatD_fst]
      exact rfl
    · rw [decodeDoubleD_fst]
      exact rfl
  · intro k b i n
    exact ⟨rfl, rfl, rfl, rfl, rfl, rfl, rfl, rfl⟩

/-- C9: for an open store and a key it does not hold, every typed decode
returns exactly the caller-supplied default value and leaves the store
unchanged. -/
theorem C9_absent_key_default (e : Engine) (k : List Nat)
    (habsent : e.get k = none)
    (b : Bool) (i32 i64 : Int) (u32 u64 f32 f64 : Nat) :
    decodeBoolD e k b = (b, e)
    ∧ decodeInt32D e k i32 = (i32, e)
    ∧ decodeUInt32D e k u32 = (u32, e)
    ∧ decodeInt64D e k i64 = (i64, e)
    ∧ decodeUInt64D e k u64 = (u64, e)
    ∧ decodeFloatD e k f32 = (f32, e)
    ∧ decodeDoubleD e k f64 = (f64, e) := by
  refine ⟨?_, ?_, ?_, ?_, ?_, ?_, ?_⟩ <;>
    simp [decodeBoolD, decodeInt32D, decodeUInt32D, decodeInt64D,
      decodeUInt64D, decodeFloatD, decodeDoubleD, habsent]

theorem C9_absent_key_default_witness :
    decodeBoolD (Engine.ofRecords []) [0] true = (true, Engine.ofRecords [])
    ∧ decodeInt32D (Engine.ofRecords []) [0] 7 = (7, Engine.ofRecords []) :=
  have h := C9_absent_key_default (Engine.ofRecords []) [0] (by decide) true 7 7 7 7 7 7
  ⟨h.1, h.2.1⟩

/-- C10: `isFileValid` returns true exactly when the file descriptor is
non-negative, the mapped size is strictly positive, and the mapped base
pointer is non-null; consequently a MemoryFile whose open failed (negative
fd) or whose mmap failed (null pointer) reports invalid, and so does one
whose cache has been dropped. -/
theorem C10_isFileValid_iff (f : MemoryFile) :
    (f.isFileValid = true ↔ (0 ≤ f.m_fd ∧ 0 < f.m_size ∧ f.m_ptr ≠ 0))
    ∧ (f.m_fd < 0 → f.isFileValid = false)
    ∧ (f.m_ptr = 0 → f.isFileValid = false)
    ∧ (f.clearMemoryCache).isFileValid = false := by
  refine ⟨?_, ?_, ?_, ?_⟩
  · simp [MemoryFile.isFileValid, ge_iff_le, and_assoc]
  · intro h
    have hn : ¬ (f.m_fd ≥ 0) := by omega
    simp [MemoryFile.isFileValid, hn]
  · intro h
    simp [MemoryFile.isFileValid, h]
  · simp [MemoryFile.isFileValid, MemoryFile.clearMemoryCache]

theorem C10_isFileValid_iff_witness :
    MemoryFile.isFileValid ⟨-1, 4, 1⟩ = false
    ∧ MemoryFile.isFileValid ⟨3, 4, 0⟩ = false
    ∧ (MemoryFile.isFileValid ⟨3, 4, 1⟩ = true ↔ (0 ≤ (3 : Int) ∧ 0 < 4 ∧ 1 ≠ 0)) :=
  ⟨(C10_isFileValid_iff ⟨-1, 4, 1⟩).2.1 (by decide),
   (C10_isFileValid_iff ⟨3, 4, 0⟩).2.2.1 (by decide),
   (C10_isFileValid_iff ⟨3, 4, 1⟩).1⟩

end MMKV
